import Mathlib

/-!
Verification of the extension packaging and lifecycle subsystem of
`src/app/extensions.cpp` (Aseprite): a shallow embedding of the
`Extension` entity, the `Extensions` catalog queries, and the
two-pass compressed-archive installation protocol, together with
theorems about their behaviour.

Paths and names are modelled as `List Char` (the character data of the
C++ `std::string`), so prefix comparison, erasure and indexing in the
source translate to `List.isPrefixOf`, `List.drop` and `List.getD`.
`std::map<std::string, std::string>` is modelled as an association list
with `mapFind` (lookup of the first occurrence of a key, which is the
relevant one because `mapSet`, the model of `m[k] = v`, overwrites in
place) and `mapSet`.
-/

namespace AsepriteExt

/-- Character data of a path or name (a C++ `std::string`). -/
abbrev Str := List Char

/-- Character data of a Lean string literal. -/
def str (s : String) : Str := s.data

/-- Lookup in the association-list model of `std::map`: value at the first
occurrence of the key. -/
def mapFind : List (Str × Str) → Str → Option Str
  | [], _ => none
  | (k0, v0) :: rest, k => if k0 = k then some v0 else mapFind rest k

/-- Update in the association-list model of `std::map` (`m[k] = v`):
overwrite the value at the first occurrence of the key, or append the new
pair at the end. -/
def mapSet : List (Str × Str) → Str → Str → List (Str × Str)
  | [], k, v => [(k, v)]
  | (k0, v0) :: rest, k, v =>
    if k0 = k then (k0, v) :: rest else (k0, v0) :: mapSet rest k v

/-- Model of the `base::join_path` collaborator (not part of this file's
source). Modelled from the spec: join the two path fragments with the
path separator, returning the other fragment when one is empty. -/
def joinPath (l r : Str) : Str :=
  if l = [] then r
  else if r = [] then l
  else l ++ '/' :: r

/-- Model of the `base::get_file_name` collaborator: the part of the path
after the last path separator. -/
def get_file_name (fn : Str) : Str :=
  (fn.reverse.takeWhile (fun c => c ≠ '/')).reverse

/-- Model of the `base::get_file_path` collaborator: the part of the path
before the last path separator (empty when there is no separator). -/
def get_file_path (fn : Str) : Str :=
  ((fn.reverse.dropWhile (fun c => c ≠ '/')).drop 1).reverse

/-- Model of the `base::get_file_title` collaborator: the file name without
its last extension. -/
def get_file_title (fn : Str) : Str :=
  let n := get_file_name fn
  if '.' ∈ n then ((n.reverse.dropWhile (fun c => c ≠ '.')).drop 1).reverse
  else n

/-- The manifest filename constant `kPackageJson`. -/
def kPackageJson : Str := str "package.json"

/-- The reserved default-theme name constant
`kAsepriteDefaultThemeExtensionName`. -/
def kAsepriteDefaultThemeExtensionName : Str := str "aseprite-theme"

/-- The `Extension` entity: identity, state flags, and the two contribution
maps (`m_themes`, `m_palettes`). -/
structure Extension where
  path : Str
  name : Str
  displayName : Str
  isEnabled : Bool
  isInstalled : Bool
  isBuiltinExtension : Bool
  themes : List (Str × Str)
  palettes : List (Str × Str)
deriving DecidableEq

/-- The `Extension` constructor: sets `m_isInstalled = true` and starts with
empty contribution maps. -/
def Extension.construct (path name displayName : Str)
    (isEnabled isBuiltinExtension : Bool) : Extension :=
  ⟨path, name, displayName, isEnabled, true, isBuiltinExtension, [], []⟩

/-- `Extension::addTheme`. -/
def Extension.addTheme (e : Extension) (id path : Str) : Extension :=
  { e with themes := mapSet e.themes id path }

/-- `Extension::addPalette`. -/
def Extension.addPalette (e : Extension) (id path : Str) : Extension :=
  { e with palettes := mapSet e.palettes id path }

/-- `Extension::isCurrentTheme`; the selected theme id read from the
`Preferences` collaborator is passed as the argument `selectedTheme`. -/
def Extension.isCurrentTheme (e : Extension) (selectedTheme : Str) : Bool :=
  (mapFind e.themes selectedTheme).isSome

/-- `Extension::isDefaultTheme`. -/
def Extension.isDefaultTheme (e : Extension) : Bool :=
  e.name = kAsepriteDefaultThemeExtensionName

/-- `Extension::canBeDisabled`. -/
def Extension.canBeDisabled (e : Extension) (selectedTheme : Str) : Bool :=
  e.isEnabled && !(e.isCurrentTheme selectedTheme) && !e.isDefaultTheme

/-- `Extension::canBeUninstalled`. -/
def Extension.canBeUninstalled (e : Extension) (selectedTheme : Str) : Bool :=
  !e.isBuiltinExtension && !(e.isCurrentTheme selectedTheme) && !e.isDefaultTheme

/-- State of the configuration collaborator: the log of boolean writes made
under the "extensions" section by `set_config_bool`, and the number of
`flush_config_file` calls. -/
structure ConfigState where
  writes : List (Str × Bool)
  flushes : Nat
deriving DecidableEq

/-- `Extension::enable`: no-op when the in-memory flag already equals the
requested state; otherwise one `set_config_bool` write plus one flush,
then the in-memory flag is updated. -/
def Extension.enable (e : Extension) (state : Bool) (cfg : ConfigState) :
    Extension × ConfigState :=
  if e.isEnabled = state then (e, cfg)
  else ({ e with isEnabled := state },
        { writes := cfg.writes ++ [(e.name, state)], flushes := cfg.flushes + 1 })

/-- `Extension::uninstall`: no-op when not installed or when
`canBeUninstalled` is false (the guarded early returns); otherwise the
on-disk tree is removed (a filesystem collaborator effect, not part of the
in-memory state) and both flags are cleared. -/
def Extension.uninstall (e : Extension) (selectedTheme : Str) : Extension :=
  if !e.isInstalled then e
  else if !(e.canBeUninstalled selectedTheme) then e
  else { e with isEnabled := false, isInstalled := false }

/-- The guards of `Extension::uninstall` both pass, so the body runs to
completion. -/
def Extension.uninstallCompletes (e : Extension) (selectedTheme : Str) : Bool :=
  e.isInstalled && e.canBeUninstalled selectedTheme

/-- `Extensions::themePath`: the loop over `m_extensions` (the catalog's
insertion-ordered collection), skipping disabled extensions and returning
the first match, or the empty string. -/
def Extensions.themePath : List Extension → Str → Str
  | [], _ => []
  | ext :: rest, themeId =>
    if !ext.isEnabled then Extensions.themePath rest themeId
    else
      match mapFind ext.themes themeId with
      | some p => p
      | none => Extensions.themePath rest themeId

/-- `Extensions::palettePath`: same loop shape as `Extensions::themePath`
over the palette maps. -/
def Extensions.palettePath : List Extension → Str → Str
  | [], _ => []
  | ext :: rest, palId =>
    if !ext.isEnabled then Extensions.palettePath rest palId
    else
      match mapFind ext.palettes palId with
      | some p => p
      | none => Extensions.palettePath rest palId

/-- `Extensions::palettes`: merge every enabled extension's palette map into
one accumulator map with `palettes[item.first] = item.second`. -/
def Extensions.palettes (exts : List Extension) : List (Str × Str) :=
  exts.foldl
    (fun acc ext =>
      if ext.isEnabled then
        ext.palettes.foldl (fun a item => mapSet a item.1 item.2) acc
      else acc)
    []

/-- The parsed manifest document: `name`, `displayName`, and the
`contributes.themes` / `contributes.palettes` arrays of (id, relative
path) pairs, in document order. -/
structure Manifest where
  name : Str
  displayName : Str
  themes : List (Str × Str)
  palettes : List (Str × Str)
deriving DecidableEq

/-- An archive entry: its pathname inside the archive, and what the JSON
parser collaborator yields on its byte stream (`none` when the bytes are
not a parseable manifest). -/
structure ArchiveEntry where
  pathname : Str
  content : Option Manifest
deriving DecidableEq

/-- `Extensions::loadExtension` after the manifest file has been parsed:
construct the extension (enabled flag read from the configuration
collaborator `cfg`, defaulting as stored there), then add every theme and
palette contribution with its path joined onto the extension root. -/
def Extensions.loadExtension (cfg : Str → Bool) (path : Str) (m : Manifest)
    (isBuiltinExtension : Bool) : Extension :=
  let e := Extension.construct path m.name m.displayName (cfg m.name)
             isBuiltinExtension
  let e := m.themes.foldl
             (fun acc t => acc.addTheme t.1 (joinPath path t.2)) e
  m.palettes.foldl
    (fun acc p => acc.addPalette p.1 (joinPath path p.2)) e

/-- The common-path computation of the inspection pass: `commonPath` is the
directory part of the manifest entry's pathname, extended by the separator
character `entryFn[commonPath.size()]` when that part is non-empty. -/
def commonPathOf (entryFn : Str) : Str :=
  let cp := get_file_path entryFn
  if cp ≠ [] ∧ cp.length < entryFn.length then cp ++ [entryFn.getD cp.length '/']
  else cp

/-- The inspection-pass scan: the first archive entry whose file name is
`kPackageJson`. -/
def findManifestEntry (entries : List ArchiveEntry) : Option ArchiveEntry :=
  entries.find? (fun e => get_file_name e.pathname = kPackageJson)

/-- The extraction-pass loop: for each entry, when `commonPath` is
non-empty skip entries that do not start with it, strip it, and skip the
entry whose remainder is empty; every surviving entry is written at the
destination directory joined with the (possibly rewritten) name. Returns
the (entry, written path) pairs in write order. -/
def extractEntries (commonPath dst : Str) :
    List ArchiveEntry → List (ArchiveEntry × Str)
  | [] => []
  | e :: rest =>
    let fn := e.pathname
    if commonPath ≠ [] then
      if ¬ commonPath.isPrefixOf fn then extractEntries commonPath dst rest
      else
        let fn2 := fn.drop commonPath.length
        if fn2 = [] then extractEntries commonPath dst rest
        else (e, joinPath dst fn2) :: extractEntries commonPath dst rest
    else (e, joinPath dst fn) :: extractEntries commonPath dst rest

/-- The entry most recently written to a given destination path (later
writes overwrite earlier ones on disk). -/
def lastWritten (ws : List (ArchiveEntry × Str)) (target : Str) :
    Option ArchiveEntry :=
  match ws with
  | [] => none
  | w :: rest =>
    match lastWritten rest target with
    | some e => some e
    | none => if w.2 = target then some w.1 else none

/-- What parsing the manifest file at `target` on disk yields after the
extraction pass: the content of the last entry written there, `none` when
no file was written there or its bytes do not parse. -/
def diskManifest (ws : List (ArchiveEntry × Str)) (target : Str) :
    Option Manifest :=
  (lastWritten ws target).bind (fun e => e.content)

/-- The ways `Extensions::installCompressedExtension` can throw. -/
inductive InstallError
  /-- `tao::json::from_stream` threw on the manifest entry's bytes during
  the inspection pass, before any file was written. -/
  | inspectionParseError
  /-- The final `loadExtension` threw: the manifest file at its extracted
  location is missing or does not parse. -/
  | finalLoadError
deriving DecidableEq

instance : DecidableEq (Except InstallError Extension) := fun x y =>
  match x, y with
  | .error a, .error b =>
    if h : a = b then .isTrue (by rw [h])
    else .isFalse (by intro hh; cases hh; exact h rfl)
  | .ok a, .ok b =>
    if h : a = b then .isTrue (by rw [h])
    else .isFalse (by intro hh; cases hh; exact h rfl)
  | .error _, .ok _ => .isFalse (by intro hh; cases hh)
  | .ok _, .error _ => .isFalse (by intro hh; cases hh)

/-- Result of an installation: the files the extraction pass wrote to disk
(in write order), and either the registered extension or the error
thrown. -/
structure InstallOutcome where
  written : List (ArchiveEntry × Str)
  result : Except InstallError Extension
deriving DecidableEq

/-- `Extensions::installCompressedExtension`: the two-pass protocol. The
default destination is derived from the archive file title; the inspection
pass looks for the manifest entry, computes `commonPath` and the real
destination from the declared name (throwing before extraction when the
manifest bytes do not parse); the extraction pass writes the entries; the
finalization parses the manifest from its on-disk location and registers
the extension as non-built-in. -/
def installCompressedExtension (cfg : Str → Bool) (userExtensionsPath zipFn : Str)
    (entries : List ArchiveEntry) : InstallOutcome :=
  let dst0 := joinPath userExtensionsPath (get_file_title zipFn)
  match findManifestEntry entries with
  | some e =>
    match e.content with
    | none => { written := [], result := .error .inspectionParseError }
    | some m =>
      let commonPath := commonPathOf e.pathname
      let dst := joinPath userExtensionsPath m.name
      let written := extractEntries commonPath dst entries
      match diskManifest written (joinPath dst kPackageJson) with
      | some m2 =>
        { written := written
          result := .ok (Extensions.loadExtension cfg dst m2 false) }
      | none => { written := written, result := .error .finalLoadError }
  | none =>
    let written := extractEntries [] dst0 entries
    match diskManifest written (joinPath dst0 kPackageJson) with
    | some m2 =>
      { written := written
        result := .ok (Extensions.loadExtension cfg dst0 m2 false) }
    | none => { written := written, result := .error .finalLoadError }

/-- The spec's description of the aggregate lookups (§4.7): the first
package in catalog order that is enabled and whose map contains the id. -/
def firstEnabledMatch (proj : Extension → List (Str × Str))
    (exts : List Extension) (id : Str) : Str :=
  match exts.find? (fun e => e.isEnabled && (mapFind (proj e) id).isSome) with
  | some e => (mapFind (proj e) id).getD []
  | none => []

/-- The spec's description of `allPalettes` (§4.7): merge the enabled
packages' palette maps with last-write-wins on id collisions, so a lookup
returns the path from the latest enabled package contributing the id. -/
def mergedPaletteSpec (exts : List Extension) (id : Str) : Option Str :=
  ((exts.filter (fun e => e.isEnabled)).reverse).findSome?
    (fun e => mapFind e.palettes id)

/-! ## Association-list map lemmas -/

theorem mapFind_mapSet (a : List (Str × Str)) (k v k' : Str) :
    mapFind (mapSet a k v) k' = if k = k' then some v else mapFind a k' := by
  induction a with
  | nil => simp [mapSet, mapFind]
  | cons p rest ih =>
    obtain ⟨k0, v0⟩ := p
    by_cases h : k0 = k
    · subst h
      by_cases h' : k0 = k' <;> simp [mapSet, mapFind, h']
    · by_cases h' : k0 = k'
      · subst h'
        have hk : ¬ k = k0 := fun hh => h hh.symm
        simp [mapSet, mapFind, h, hk]
      · simp [mapSet, mapFind, h, h', ih]

theorem mapFind_append (a b : List (Str × Str)) (k : Str) :
    mapFind (a ++ b) k
      = match mapFind a k with
        | some v => some v
        | none => mapFind b k := by
  induction a with
  | nil => simp [mapFind]
  | cons p rest ih =>
    by_cases h : p.1 = k <;> simp [mapFind, h, ih]

theorem mapFind_eq_none_of_not_mem (a : List (Str × Str)) (k : Str)
    (h : k ∉ a.map Prod.fst) : mapFind a k = none := by
  induction a with
  | nil => rfl
  | cons p rest ih =>
    simp only [List.map_cons, List.mem_cons] at h
    push_neg at h
    have h1 : ¬ p.1 = k := fun he => h.1 he.symm
    simp [mapFind, h1, ih h.2]

theorem mapFind_reverse (a : List (Str × Str)) (k : Str)
    (h : (a.map Prod.fst).Nodup) : mapFind a.reverse k = mapFind a k := by
  induction a with
  | nil => rfl
  | cons p rest ih =>
    simp only [List.map_cons, List.nodup_cons] at h
    rw [List.reverse_cons, mapFind_append]
    by_cases hk : p.1 = k
    · subst hk
      have : mapFind rest.reverse p.1 = none := by
        apply mapFind_eq_none_of_not_mem
        simpa using h.1
      simp [this, mapFind]
    · simp only [ih h.2]
      cases hF : mapFind rest k <;> simp [mapFind, hk, hF]

theorem mapFind_foldl_mapSet (ps : List (Str × Str))
    (acc : List (Str × Str)) (k : Str) :
    mapFind (ps.foldl (fun a it => mapSet a it.1 it.2) acc) k
      = match mapFind ps.reverse k with
        | some v => some v
        | none => mapFind acc k := by
  induction ps generalizing acc with
  | nil => simp [mapFind]
  | cons p rest ih =>
    rw [List.foldl_cons, ih, List.reverse_cons, mapFind_append]
    cases hF : mapFind rest.reverse k
    · rw [mapFind_mapSet]
      by_cases hk : p.1 = k <;> simp [mapFind, hk]
    · rfl

theorem findSome?_append {α β : Type} (A B : List α) (f : α → Option β) :
    (A ++ B).findSome? f
      = match A.findSome? f with
        | some v => some v
        | none => B.findSome? f := by
  induction A with
  | nil => simp [List.findSome?]
  | cons a rest ih =>
    cases hf : f a <;> simp [List.findSome?, hf, ih]

/-! ## Theorems -/

/-- Claim C4: every package whose name equals the reserved default theme
sentinel has `canBeDisabled` false, regardless of its enabled, built-in,
or current-theme status. -/
theorem default_theme_cannot_be_disabled (e : Extension) (selectedTheme : Str)
    (h : e.name = kAsepriteDefaultThemeExtensionName) :
    e.canBeDisabled selectedTheme = false := by
  simp [Extension.canBeDisabled, Extension.isDefaultTheme, h]

/-- Witness for `default_theme_cannot_be_disabled` at a concrete enabled,
built-in package carrying the sentinel name. -/
theorem default_theme_cannot_be_disabled_witness :
    (Extension.mk (str "p") (str "aseprite-theme") (str "D") true true true
        [] []).canBeDisabled (str "t") = false :=
  default_theme_cannot_be_disabled _ _ (by decide)

/-- Claim C5: every built-in package has `canBeUninstalled` false. -/
theorem builtin_cannot_be_uninstalled (e : Extension) (selectedTheme : Str)
    (h : e.isBuiltinExtension = true) :
    e.canBeUninstalled selectedTheme = false := by
  simp [Extension.canBeUninstalled, h]

/-- Witness for `builtin_cannot_be_uninstalled` at a concrete built-in
package. -/
theorem builtin_cannot_be_uninstalled_witness :
    (Extension.mk (str "p") (str "n") (str "D") true true true
        [] []).canBeUninstalled (str "t") = false :=
  builtin_cannot_be_uninstalled _ _ (by decide)

/-- Claim C6: `enable` is idempotent. Calling it with the value the
in-memory flag already holds returns the extension and the configuration
state unchanged (no write, no flush); a second call with the same value
after any first call changes nothing; and a call that does switch the flag
performs exactly one configuration write and one flush. -/
theorem enable_idempotent (e : Extension) (x : Bool) (cfg : ConfigState) :
    e.enable e.isEnabled cfg = (e, cfg) ∧
    (e.enable x cfg).1.enable x (e.enable x cfg).2 = e.enable x cfg ∧
    ({ e with isEnabled := !x }).enable x cfg
      = ({ e with isEnabled := x },
         { writes := cfg.writes ++ [(e.name, x)], flushes := cfg.flushes + 1 }) := by
  refine ⟨by simp [Extension.enable], ?_, ?_⟩
  · by_cases h : e.isEnabled = x <;> simp [Extension.enable, h]
  · cases x <;> simp [Extension.enable]

/-- Claim C2 counterexample: a concrete non-built-in, non-default-theme,
enabled and installed package on which `uninstall` completes, yet
`canBeUninstalled` still returns true afterwards (it does not consult the
installed flag), contradicting the claim that it returns false. -/
theorem uninstall_canBeUninstalled_counterexample :
    (Extension.mk (str "u/foo") (str "foo") (str "Foo") true true false
        [] []).uninstallCompletes (str "default") = true ∧
    ((Extension.mk (str "u/foo") (str "foo") (str "Foo") true true false
        [] []).uninstall (str "default")).canBeUninstalled (str "default")
      = true := by decide

/-- Claim C2 amended: after `uninstall` completes, the enabled and
installed flags are false and `canBeDisabled` returns false, but
`canBeUninstalled` still returns true, because it only consults the
built-in, current-theme and default-theme conditions, which `uninstall`
does not change. -/
theorem uninstall_updates_flags (e : Extension) (selectedTheme : Str)
    (h : e.uninstallCompletes selectedTheme = true) :
    (e.uninstall selectedTheme).isEnabled = false ∧
    (e.uninstall selectedTheme).isInstalled = false ∧
    (e.uninstall selectedTheme).canBeDisabled selectedTheme = false ∧
    (e.uninstall selectedTheme).canBeUninstalled selectedTheme = true := by
  rw [Extension.uninstallCompletes, Bool.and_eq_true] at h
  obtain ⟨h1, h2⟩ := h
  have hu : e.uninstall selectedTheme
      = { e with isEnabled := false, isInstalled := false } := by
    rw [Extension.uninstall, h1, h2]
    simp
  rw [hu]
  refine ⟨rfl, rfl, by simp [Extension.canBeDisabled], ?_⟩
  rw [← h2]
  rfl

/-- Witness for `uninstall_updates_flags` at a concrete package on which
`uninstall` completes. -/
theorem uninstall_updates_flags_witness :
    ((Extension.mk (str "u/bar") (str "bar") (str "Bar") true true false
        [] []).uninstall (str "default")).isEnabled = false ∧
    ((Extension.mk (str "u/bar") (str "bar") (str "Bar") true true false
        [] []).uninstall (str "default")).isInstalled = false ∧
    ((Extension.mk (str "u/bar") (str "bar") (str "Bar") true true false
        [] []).uninstall (str "default")).canBeDisabled (str "default") = false ∧
    ((Extension.mk (str "u/bar") (str "bar") (str "Bar") true true false
        [] []).uninstall (str "default")).canBeUninstalled (str "default") = true :=
  uninstall_updates_flags _ _ (by decide)

/-- Claim C7: `themePath` and `palettePath` return the path from the first
package in catalog (insertion) order that is enabled and whose theme or
palette map contains the id, skipping disabled packages, and the empty
string when no enabled package contributes the id. -/
theorem lookup_first_enabled_match (exts : List Extension) (id : Str) :
    Extensions.themePath exts id = firstEnabledMatch Extension.themes exts id ∧
    Extensions.palettePath exts id
      = firstEnabledMatch Extension.palettes exts id := by
  induction exts with
  | nil => exact ⟨rfl, rfl⟩
  | cons ext rest ih =>
    obtain ⟨ih1, ih2⟩ := ih
    constructor
    · cases hEn : ext.isEnabled
      · simp [Extensions.themePath, firstEnabledMatch, List.find?, hEn, ih1]
      · cases hF : mapFind ext.themes id
        · simp [Extensions.themePath, firstEnabledMatch, List.find?, hEn, hF,
                ih1]
        · simp [Extensions.themePath, firstEnabledMatch, List.find?, hEn, hF]
    · cases hEn : ext.isEnabled
      · simp [Extensions.palettePath, firstEnabledMatch, List.find?, hEn, ih2]
      · cases hF : mapFind ext.palettes id
        · simp [Extensions.palettePath, firstEnabledMatch, List.find?, hEn, hF,
                ih2]
        · simp [Extensions.palettePath, firstEnabledMatch, List.find?, hEn, hF]

theorem palettes_foldl_char (exts : List Extension) (id : Str) :
    ∀ init : List (Str × Str),
    (∀ ext ∈ exts, (ext.palettes.map Prod.fst).Nodup) →
    mapFind
      (exts.foldl
        (fun acc ext =>
          if ext.isEnabled then
            ext.palettes.foldl (fun a item => mapSet a item.1 item.2) acc
          else acc)
        init) id
      = match mergedPaletteSpec exts id with
        | some v => some v
        | none => mapFind init id := by
  induction exts with
  | nil =>
    intro init h
    simp [mergedPaletteSpec, List.findSome?]
  | cons ext rest ih =>
    intro init h
    have hrest := fun e he => h e (List.mem_cons_of_mem _ he)
    have hext := h ext (List.mem_cons_self _ _)
    rw [List.foldl_cons, ih _ hrest]
    cases hEn : ext.isEnabled
    · have hspec : mergedPaletteSpec (ext :: rest) id
          = mergedPaletteSpec rest id := by
        simp [mergedPaletteSpec, List.filter_cons, hEn]
      rw [hspec]
      simp [hEn]
    · have hfold :
          mapFind (ext.palettes.foldl (fun a item => mapSet a item.1 item.2)
            init) id
            = match mapFind ext.palettes id with
              | some v => some v
              | none => mapFind init id := by
        rw [mapFind_foldl_mapSet, mapFind_reverse _ _ hext]
      have hspec : mergedPaletteSpec (ext :: rest) id
          = match mergedPaletteSpec rest id with
            | some v => some v
            | none => mapFind ext.palettes id := by
        simp only [mergedPaletteSpec, List.filter_cons, hEn, if_pos,
          List.reverse_cons]
        rw [findSome?_append]
        cases ((rest.filter (fun e => e.isEnabled)).reverse).findSome?
            (fun e => mapFind e.palettes id)
        · cases hB : mapFind ext.palettes id <;> simp [List.findSome?, hB]
        · rfl
      rw [hspec]
      simp only [hEn, if_pos]
      rw [hfold]
      cases mergedPaletteSpec rest id <;>
        cases hB : mapFind ext.palettes id <;> simp [hB]

/-- Claim C8: a lookup in the merged map built by `Extensions::palettes`
returns the palette path of the latest enabled package in catalog order
that contributes the id (last write wins on id collisions, disabled
packages contribute nothing), provided each package's own palette map has
no duplicate ids (the `std::map` invariant). -/
theorem palettes_last_write_wins (exts : List Extension) (id : Str)
    (h : ∀ ext ∈ exts, (ext.palettes.map Prod.fst).Nodup) :
    mapFind (Extensions.palettes exts) id = mergedPaletteSpec exts id := by
  rw [Extensions.palettes, palettes_foldl_char exts id [] h]
  cases mergedPaletteSpec exts id <;> simp [mapFind]

/-- Witness for `palettes_last_write_wins`: two enabled packages both
contribute palette id "p1"; the merged lookup returns the later package's
path. -/
theorem palettes_last_write_wins_witness :
    mapFind
      (Extensions.palettes
        [Extension.mk (str "u/a") (str "a") (str "A") true true false []
           [(str "p1", str "u/a/one.gpl")],
         Extension.mk (str "u/b") (str "b") (str "B") true true false []
           [(str "p1", str "u/b/two.gpl")]]) (str "p1")
      = mergedPaletteSpec
          [Extension.mk (str "u/a") (str "a") (str "A") true true false []
             [(str "p1", str "u/a/one.gpl")],
           Extension.mk (str "u/b") (str "b") (str "B") true true false []
             [(str "p1", str "u/b/two.gpl")]] (str "p1") :=
  palettes_last_write_wins _ _ (by decide)

/-! ## Extraction-pass lemmas -/

theorem extractEntries_nil_cp (dst : Str) (entries : List ArchiveEntry) :
    extractEntries [] dst entries
      = entries.map (fun e => (e, joinPath dst e.pathname)) := by
  induction entries with
  | nil => rfl
  | cons e rest ih => simp [extractEntries, ih]

theorem joinPath_right_inj (d a b : Str) (hb : b ≠ [])
    (h : joinPath d a = joinPath d b) : a = b := by
  by_cases hd : d = []
  · simpa [joinPath, hd] using h
  · by_cases ha : a = []
    · exfalso
      rw [joinPath, joinPath, if_neg hd, if_pos ha, if_neg hd, if_neg hb] at h
      have := congrArg List.length h
      simp at this
    · rw [joinPath, joinPath, if_neg hd, if_neg ha, if_neg hd, if_neg hb] at h
      exact List.cons_injective (List.append_cancel_left h)

theorem lastWritten_eq_none (ws : List (ArchiveEntry × Str)) (target : Str)
    (h : ∀ w ∈ ws, w.2 ≠ target) : lastWritten ws target = none := by
  induction ws with
  | nil => rfl
  | cons w rest ih =>
    rw [lastWritten,
        ih (fun x hx => h x (List.mem_cons_of_mem _ hx)),
        if_neg (h w (List.mem_cons_self _ _))]

theorem lastWritten_mem (ws : List (ArchiveEntry × Str)) (target : Str)
    (e : ArchiveEntry) (h : lastWritten ws target = some e) :
    ∃ w ∈ ws, w.1 = e ∧ w.2 = target := by
  induction ws with
  | nil => cases h
  | cons w rest ih =>
    rw [lastWritten] at h
    cases hrec : lastWritten rest target with
    | some e0 =>
      rw [hrec] at h
      have he0 : e0 = e := by injection h
      subst he0
      obtain ⟨w0, hw0, h1, h2⟩ := ih hrec
      exact ⟨w0, List.mem_cons_of_mem _ hw0, h1, h2⟩
    | none =>
      rw [hrec] at h
      by_cases ht : w.2 = target
      · rw [if_pos ht] at h
        exact ⟨w, List.mem_cons_self _ _, by injection h, ht⟩
      · rw [if_neg ht] at h
        cases h

/-! ## Path decomposition lemmas -/

theorem takeWhile_all (p : Char → Bool) (A : Str) (h : ∀ a ∈ A, p a = true) :
    A.takeWhile p = A := by
  induction A with
  | nil => rfl
  | cons a rest ih =>
    have ha := h a (List.mem_cons_self _ _)
    have ih' := ih (fun x hx => h x (List.mem_cons_of_mem _ hx))
    simp [List.takeWhile_cons, ha, ih']

theorem takeWhile_append_all (p : Char → Bool) (A B : Str)
    (h : ∀ a ∈ A, p a = true) :
    (A ++ B).takeWhile p = A ++ B.takeWhile p := by
  induction A with
  | nil => simp
  | cons a rest ih =>
    have ha := h a (List.mem_cons_self _ _)
    have ih' := ih (fun x hx => h x (List.mem_cons_of_mem _ hx))
    simp [List.takeWhile_cons, ha, ih']

theorem dropWhile_append_all (p : Char → Bool) (A B : Str)
    (h : ∀ a ∈ A, p a = true) :
    (A ++ B).dropWhile p = B.dropWhile p := by
  induction A with
  | nil => simp
  | cons a rest ih =>
    have ha := h a (List.mem_cons_self _ _)
    have ih' := ih (fun x hx => h x (List.mem_cons_of_mem _ hx))
    simp [List.dropWhile_cons, ha, ih']

theorem all_ne_sep (z : Str) (h : '/' ∉ z) :
    ∀ a ∈ z.reverse, (fun c => decide (c ≠ '/')) a = true := by
  intro a ha
  simp only [List.mem_reverse] at ha
  have hne : a ≠ '/' := by
    intro he
    exact h (he ▸ ha)
  simpa using hne

theorem get_file_name_no_sep (fn : Str) (h : '/' ∉ fn) :
    get_file_name fn = fn := by
  rw [get_file_name, takeWhile_all _ _ (all_ne_sep fn h), List.reverse_reverse]

theorem get_file_path_no_sep (fn : Str) (h : '/' ∉ fn) :
    get_file_path fn = [] := by
  rw [get_file_path]
  have hdrop := dropWhile_append_all (fun c => decide (c ≠ '/'))
    fn.reverse [] (all_ne_sep fn h)
  rw [List.append_nil] at hdrop
  rw [hdrop]
  rfl

theorem get_file_name_append_sep (x y : Str) (hy : '/' ∉ y) :
    get_file_name (x ++ '/' :: y) = y := by
  have hrev : (x ++ '/' :: y).reverse = y.reverse ++ '/' :: x.reverse := by
    rw [List.reverse_append, List.reverse_cons, List.append_assoc,
        List.singleton_append]
  rw [get_file_name, hrev, takeWhile_append_all _ _ _ (all_ne_sep y hy)]
  simp [List.takeWhile_cons]

theorem get_file_path_append_sep (x y : Str) (hy : '/' ∉ y) :
    get_file_path (x ++ '/' :: y) = x := by
  have hrev : (x ++ '/' :: y).reverse = y.reverse ++ '/' :: x.reverse := by
    rw [List.reverse_append, List.reverse_cons, List.append_assoc,
        List.singleton_append]
  rw [get_file_path, hrev, dropWhile_append_all _ _ _ (all_ne_sep y hy)]
  simp [List.dropWhile_cons]

theorem exists_sep_decomp (fn : Str) (h : '/' ∈ fn) :
    ∃ x y, fn = x ++ '/' :: y ∧ '/' ∉ y := by
  induction fn with
  | nil => cases h
  | cons c rest ih =>
    by_cases hr : '/' ∈ rest
    · obtain ⟨x, y, h1, h2⟩ := ih hr
      exact ⟨c :: x, y, by rw [List.cons_append, h1], h2⟩
    · have hc : c = '/' := by
        rcases List.mem_cons.mp h with h' | h'
        · exact h'.symm
        · exact absurd h' hr
      exact ⟨[], rest, by rw [hc]; rfl, hr⟩

theorem getD_append_cons (l1 l2 : Str) (a d : Char) :
    (l1 ++ a :: l2).getD l1.length d = a := by
  induction l1 with
  | nil => rfl
  | cons c rest ih => simpa using ih

theorem commonPathOf_sep (x y : Str) (hy : '/' ∉ y) (hx : x ≠ []) :
    commonPathOf (x ++ '/' :: y) = x ++ ['/'] := by
  rw [commonPathOf, get_file_path_append_sep x y hy]
  have hlen : x.length < (x ++ '/' :: y).length := by simp
  rw [if_pos ⟨hx, hlen⟩, getD_append_cons]

theorem extractEntries_filter_char (commonPath dst : Str)
    (entries : List ArchiveEntry) (h : commonPath ≠ []) :
    extractEntries commonPath dst entries
      = (entries.filter (fun e =>
            commonPath.isPrefixOf e.pathname
              && !(e.pathname.drop commonPath.length).isEmpty)).map
          (fun e => (e, joinPath dst (e.pathname.drop commonPath.length))) := by
  induction entries with
  | nil => rfl
  | cons e rest ih =>
    by_cases hp : commonPath.isPrefixOf e.pathname
    · by_cases hd : e.pathname.drop commonPath.length = []
      · simp [extractEntries, h, hp, hd, ih, List.filter_cons]
      · simp [extractEntries, h, hp, hd, ih, List.filter_cons,
              List.isEmpty_iff]
    · simp [extractEntries, h, hp, ih, List.filter_cons]

theorem install_no_manifest (cfg : Str → Bool)
    (userExtensionsPath zipFn : Str) (entries : List ArchiveEntry)
    (h : ∀ e ∈ entries, get_file_name e.pathname ≠ kPackageJson) :
    (installCompressedExtension cfg userExtensionsPath zipFn entries).result
      = .error .finalLoadError ∧
    (installCompressedExtension cfg userExtensionsPath zipFn entries).written
      = entries.map (fun e =>
          (e, joinPath (joinPath userExtensionsPath (get_file_title zipFn))
             e.pathname)) := by
  have hfind : findManifestEntry entries = none := by
    rw [findManifestEntry, List.find?_eq_none]
    intro e he
    simp [h e he]
  have hwrit := extractEntries_nil_cp
    (joinPath userExtensionsPath (get_file_title zipFn)) entries
  have hnone : lastWritten
      (extractEntries []
        (joinPath userExtensionsPath (get_file_title zipFn)) entries)
      (joinPath (joinPath userExtensionsPath (get_file_title zipFn))
        kPackageJson) = none := by
    apply lastWritten_eq_none
    intro w hw ht
    rw [hwrit] at hw
    obtain ⟨e, he, rfl⟩ := List.mem_map.mp hw
    have hpn : e.pathname = kPackageJson :=
      joinPath_right_inj _ _ _ (by decide) ht
    exact h e he (by rw [hpn]; decide)
  rw [installCompressedExtension, hfind]
  rw [hwrit] at hnone
  simp [diskManifest, hwrit, hnone]

/-! ## Claim theorems about the extraction pass -/

/-- Claim C10: when the computed common path is empty, the extraction pass
applies no filtering: every archive entry is written under the destination
directory at its original archive path. -/
theorem extraction_empty_common_path_no_filter (dst : Str)
    (entries : List ArchiveEntry) :
    extractEntries [] dst entries
      = entries.map (fun e => (e, joinPath dst e.pathname)) :=
  extractEntries_nil_cp dst entries

/-- Claim C3: with a non-empty common path, the extraction pass writes
exactly the entries whose pathname starts with the common-path prefix and
whose remainder after stripping it is non-empty, each to the destination
directory joined with the stripped remainder; entries not matching the
prefix and the bare common-path folder entry are skipped. -/
theorem extraction_strips_common_path (commonPath dst : Str)
    (entries : List ArchiveEntry) (h : commonPath ≠ []) :
    extractEntries commonPath dst entries
      = (entries.filter (fun e =>
            commonPath.isPrefixOf e.pathname
              && !(e.pathname.drop commonPath.length).isEmpty)).map
          (fun e => (e, joinPath dst (e.pathname.drop commonPath.length))) :=
  extractEntries_filter_char commonPath dst entries h

/-- Witness for `extraction_strips_common_path` on the spec's example:
entries `foo/package.json`, `foo/theme.ase`, `bar/stray.txt` and the bare
`foo/` folder entry, with common path `foo/`. -/
theorem extraction_strips_common_path_witness :
    extractEntries (str "foo/") (str "dest")
        [ArchiveEntry.mk (str "foo/package.json") none,
         ArchiveEntry.mk (str "foo/theme.ase") none,
         ArchiveEntry.mk (str "bar/stray.txt") none,
         ArchiveEntry.mk (str "foo/") none]
      = ([ArchiveEntry.mk (str "foo/package.json") none,
          ArchiveEntry.mk (str "foo/theme.ase") none,
          ArchiveEntry.mk (str "bar/stray.txt") none,
          ArchiveEntry.mk (str "foo/") none].filter (fun e =>
            (str "foo/").isPrefixOf e.pathname
              && !(e.pathname.drop (str "foo/").length).isEmpty)).map
          (fun e =>
            (e, joinPath (str "dest")
               (e.pathname.drop (str "foo/").length))) :=
  extraction_strips_common_path _ _ _ (by decide)

/-- Claim C1 counterexample: a concrete archive with a single entry
`stray.txt` and no manifest-named entry, on which installation writes that
entry into the user extensions directory, contradicting the claim that the
directory is left unmodified. -/
theorem install_missing_manifest_counterexample :
    (∀ e ∈ [ArchiveEntry.mk (str "stray.txt") none],
       get_file_name e.pathname ≠ kPackageJson) ∧
    (installCompressedExtension (fun _ => true) (str "u") (str "ext.zip")
        [ArchiveEntry.mk (str "stray.txt") none]).written ≠ [] := by decide

/-- Claim C1 amended: when no archive entry is named `package.json`, the
installation still fails, but only at finalization when loading the
extracted manifest (there is no dedicated missing-manifest error), and
before failing the extraction pass has already written every entry of the
archive under the fallback destination directory derived from the archive
filename, inside the user extensions directory. -/
theorem install_missing_manifest_extracts_all (cfg : Str → Bool)
    (userExtensionsPath zipFn : Str) (entries : List ArchiveEntry)
    (h : ∀ e ∈ entries, get_file_name e.pathname ≠ kPackageJson) :
    (installCompressedExtension cfg userExtensionsPath zipFn entries).result
      = .error .finalLoadError ∧
    (installCompressedExtension cfg userExtensionsPath zipFn entries).written
      = entries.map (fun e =>
          (e, joinPath (joinPath userExtensionsPath (get_file_title zipFn))
             e.pathname)) :=
  install_no_manifest cfg userExtensionsPath zipFn entries h

/-- Witness for `install_missing_manifest_extracts_all` at the concrete
one-entry archive. -/
theorem install_missing_manifest_extracts_all_witness :
    (installCompressedExtension (fun _ => true) (str "u") (str "ext.zip")
        [ArchiveEntry.mk (str "stray.txt") none]).result
      = .error .finalLoadError ∧
    (installCompressedExtension (fun _ => true) (str "u") (str "ext.zip")
        [ArchiveEntry.mk (str "stray.txt") none]).written
      = [ArchiveEntry.mk (str "stray.txt") none].map (fun e =>
          (e, joinPath (joinPath (str "u") (get_file_title (str "ext.zip")))
             e.pathname)) :=
  install_missing_manifest_extracts_all _ _ _ _ (by decide)

/-! ## Lemmas for the installation round trip -/

theorem mem_mapSet (a : List (Str × Str)) (k v : Str) (x : Str × Str)
    (h : x ∈ mapSet a k v) : x ∈ a ∨ x = (k, v) := by
  induction a with
  | nil =>
    rw [mapSet] at h
    right
    simpa using h
  | cons p rest ih =>
    obtain ⟨k0, v0⟩ := p
    rw [mapSet] at h
    by_cases hk : k0 = k
    · rw [if_pos hk] at h
      rcases List.mem_cons.mp h with h' | h'
      · right
        rw [h', hk]
      · exact Or.inl (List.mem_cons_of_mem _ h')
    · rw [if_neg hk] at h
      rcases List.mem_cons.mp h with h' | h'
      · exact Or.inl (h' ▸ List.mem_cons_self _ _)
      · rcases ih h' with h'' | h''
        · exact Or.inl (List.mem_cons_of_mem _ h'')
        · exact Or.inr h''

theorem foldl_addTheme_spec (src : List (Str × Str)) (path : Str) :
    ∀ e : Extension,
    (src.foldl (fun acc t => acc.addTheme t.1 (joinPath path t.2)) e).path
        = e.path ∧
    (src.foldl (fun acc t => acc.addTheme t.1 (joinPath path t.2)) e).palettes
        = e.palettes ∧
    ∀ x ∈ (src.foldl (fun acc t =>
        acc.addTheme t.1 (joinPath path t.2)) e).themes,
      x ∈ e.themes ∨ ∃ t ∈ src, x = (t.1, joinPath path t.2) := by
  induction src with
  | nil => exact fun e => ⟨rfl, rfl, fun x hx => Or.inl hx⟩
  | cons t rest ih =>
    intro e
    rw [List.foldl_cons]
    obtain ⟨h1, h2, h3⟩ := ih (e.addTheme t.1 (joinPath path t.2))
    refine ⟨h1, h2, ?_⟩
    intro x hx
    rcases h3 x hx with hx' | ⟨t', ht', hx'⟩
    · rcases mem_mapSet _ _ _ _ hx' with h'' | h''
      · exact Or.inl h''
      · exact Or.inr ⟨t, List.mem_cons_self _ _, h''⟩
    · exact Or.inr ⟨t', List.mem_cons_of_mem _ ht', hx'⟩

theorem foldl_addPalette_spec (src : List (Str × Str)) (path : Str) :
    ∀ e : Extension,
    (src.foldl (fun acc p => acc.addPalette p.1 (joinPath path p.2)) e).path
        = e.path ∧
    (src.foldl (fun acc p => acc.addPalette p.1 (joinPath path p.2)) e).themes
        = e.themes ∧
    ∀ x ∈ (src.foldl (fun acc p =>
        acc.addPalette p.1 (joinPath path p.2)) e).palettes,
      x ∈ e.palettes ∨ ∃ p ∈ src, x = (p.1, joinPath path p.2) := by
  induction src with
  | nil => exact fun e => ⟨rfl, rfl, fun x hx => Or.inl hx⟩
  | cons p rest ih =>
    intro e
    rw [List.foldl_cons]
    obtain ⟨h1, h2, h3⟩ := ih (e.addPalette p.1 (joinPath path p.2))
    refine ⟨h1, h2, ?_⟩
    intro x hx
    rcases h3 x hx with hx' | ⟨p', hp', hx'⟩
    · rcases mem_mapSet _ _ _ _ hx' with h'' | h''
      · exact Or.inl h''
      · exact Or.inr ⟨p, List.mem_cons_self _ _, h''⟩
    · exact Or.inr ⟨p', List.mem_cons_of_mem _ hp', hx'⟩

theorem loadExtension_spec (cfg : Str → Bool) (path : Str) (m : Manifest)
    (b : Bool) :
    (Extensions.loadExtension cfg path m b).path = path ∧
    (∀ x ∈ (Extensions.loadExtension cfg path m b).themes,
       ∃ rel, (x.1, rel) ∈ m.themes ∧ x.2 = joinPath path rel) ∧
    (∀ x ∈ (Extensions.loadExtension cfg path m b).palettes,
       ∃ rel, (x.1, rel) ∈ m.palettes ∧ x.2 = joinPath path rel) := by
  obtain ⟨ht1, ht2, ht3⟩ := foldl_addTheme_spec m.themes path
    (Extension.construct path m.name m.displayName (cfg m.name) b)
  obtain ⟨hp1, hp2, hp3⟩ := foldl_addPalette_spec m.palettes path
    (m.themes.foldl (fun acc t => acc.addTheme t.1 (joinPath path t.2))
      (Extension.construct path m.name m.displayName (cfg m.name) b))
  refine ⟨hp1.trans ht1, ?_, ?_⟩
  · intro x hx
    rw [show (Extensions.loadExtension cfg path m b).themes
          = (m.themes.foldl (fun acc t => acc.addTheme t.1 (joinPath path t.2))
              (Extension.construct path m.name m.displayName (cfg m.name)
                b)).themes from hp2] at hx
    rcases ht3 x hx with hx' | ⟨t, ht, hx'⟩
    · cases hx'
    · exact ⟨t.2, by rw [hx']; exact ht, by rw [hx']⟩
  · intro x hx
    rcases hp3 x hx with hx' | ⟨p, hp, hx'⟩
    · rw [ht2] at hx'
      cases hx'
    · exact ⟨p.2, by rw [hx']; exact hp, by rw [hx']⟩

theorem mem_extractEntries (cp dst : Str) (entries : List ArchiveEntry)
    (w : ArchiveEntry × Str) (h : w ∈ extractEntries cp dst entries) :
    w.1 ∈ entries ∧
    ((cp = [] ∧ w.2 = joinPath dst w.1.pathname) ∨
     (cp ≠ [] ∧ cp.isPrefixOf w.1.pathname = true ∧
      w.1.pathname.drop cp.length ≠ [] ∧
      w.2 = joinPath dst (w.1.pathname.drop cp.length))) := by
  by_cases hcp : cp = []
  · subst hcp
    rw [extractEntries_nil_cp] at h
    obtain ⟨e, he, hw⟩ := List.mem_map.mp h
    rw [← hw]
    exact ⟨he, Or.inl ⟨rfl, rfl⟩⟩
  · rw [extractEntries_filter_char cp dst entries hcp] at h
    obtain ⟨e, he, hw⟩ := List.mem_map.mp h
    obtain ⟨he', hpred⟩ := List.mem_filter.mp he
    rw [Bool.and_eq_true] at hpred
    obtain ⟨hpre, hne⟩ := hpred
    rw [← hw]
    refine ⟨he', Or.inr ⟨hcp, hpre, ?_, rfl⟩⟩
    intro hnil
    rw [hnil] at hne
    cases hne

theorem commonPathOf_ne_nil_decomp (fn : Str) (h : commonPathOf fn ≠ []) :
    ∃ x y, fn = x ++ '/' :: y ∧ '/' ∉ y ∧ x ≠ [] ∧
      commonPathOf fn = x ++ ['/'] := by
  have hfp : get_file_path fn ≠ [] := by
    intro hnil
    apply h
    rw [commonPathOf, hnil]
    simp
  have hsep : '/' ∈ fn := by
    by_contra hns
    exact hfp (get_file_path_no_sep fn hns)
  obtain ⟨x, y, hxy, hy⟩ := exists_sep_decomp fn hsep
  have hx : x ≠ [] := by
    intro hnil
    apply hfp
    rw [hxy, get_file_path_append_sep x y hy, hnil]
  exact ⟨x, y, hxy, hy, hx, by rw [hxy, commonPathOf_sep x y hy hx]⟩

theorem manifest_writer_name (cp dst target : Str) (e : ArchiveEntry)
    (hcp : ∃ x, cp = x ++ ['/'])
    (htarget : target = joinPath dst kPackageJson)
    (hpre : cp.isPrefixOf e.pathname = true)
    (hw : joinPath dst (e.pathname.drop cp.length) = target) :
    get_file_name e.pathname = kPackageJson := by
  obtain ⟨x, hx⟩ := hcp
  have hdrop : e.pathname.drop cp.length = kPackageJson := by
    apply joinPath_right_inj dst _ _ (by decide)
    rw [hw, htarget]
  have hsplit : cp ++ e.pathname.drop cp.length = e.pathname :=
    List.prefix_iff_eq_append.mp (List.isPrefixOf_iff_prefix.mp hpre)
  have hpath : e.pathname = x ++ '/' :: kPackageJson := by
    rw [← hsplit, hdrop, hx, List.append_assoc, List.singleton_append]
  rw [hpath]
  exact get_file_name_append_sep x kPackageJson (by decide)

/-- Claim C9: for every successful install from an archive whose manifest
(the content of every manifest-named entry) declares name `m.name`, the
registered extension's root path is the user extensions directory joined
with that name, and every stored theme and palette path is the root joined
with the relative path declared in the manifest. -/
theorem install_roundtrip (cfg : Str → Bool) (userExtensionsPath zipFn : Str)
    (entries : List ArchiveEntry) (m : Manifest)
    (hm : ∀ e ∈ entries,
      get_file_name e.pathname = kPackageJson → e.content = some m)
    (ext : Extension)
    (hok : (installCompressedExtension cfg userExtensionsPath zipFn
        entries).result = .ok ext) :
    ext.path = joinPath userExtensionsPath m.name ∧
    (∀ x ∈ ext.themes,
       ∃ rel, (x.1, rel) ∈ m.themes ∧ x.2 = joinPath ext.path rel) ∧
    (∀ x ∈ ext.palettes,
       ∃ rel, (x.1, rel) ∈ m.palettes ∧ x.2 = joinPath ext.path rel) := by
  cases hfind : findManifestEntry entries with
  | none =>
    exfalso
    have hno : ∀ e ∈ entries, get_file_name e.pathname ≠ kPackageJson := by
      intro e he
      have := List.find?_eq_none.mp hfind e he
      simpa using this
    have := (install_no_manifest cfg userExtensionsPath zipFn entries hno).1
    rw [this] at hok
    cases hok
  | some e =>
    have hemem : e ∈ entries := List.mem_of_find?_eq_some hfind
    have hename : get_file_name e.pathname = kPackageJson := by
      have := List.find?_some hfind
      simpa using this
    have hcont : e.content = some m := hm e hemem hename
    simp only [installCompressedExtension, hfind, hcont] at hok
    cases hdisk : diskManifest
        (extractEntries (commonPathOf e.pathname)
          (joinPath userExtensionsPath m.name) entries)
        (joinPath (joinPath userExtensionsPath m.name) kPackageJson) with
    | none =>
      exfalso
      rw [hdisk] at hok
      simp only at hok
      cases hok
    | some m2 =>
      rw [hdisk] at hok
      simp only at hok
      have hle : Extensions.loadExtension cfg
          (joinPath userExtensionsPath m.name) m2 false = ext := by
        injection hok
      have hm2 : m2 = m := by
        rw [diskManifest] at hdisk
        cases hlw : lastWritten
            (extractEntries (commonPathOf e.pathname)
              (joinPath userExtensionsPath m.name) entries)
            (joinPath (joinPath userExtensionsPath m.name) kPackageJson) with
        | none =>
          rw [hlw] at hdisk
          cases hdisk
        | some w0 =>
          rw [hlw] at hdisk
          simp only [Option.bind] at hdisk
          obtain ⟨w, hwmem, hw1, hw2⟩ := lastWritten_mem _ _ _ hlw
          obtain ⟨hwent, hcases⟩ := mem_extractEntries _ _ _ _ hwmem
          have hwname : get_file_name w.1.pathname = kPackageJson := by
            rcases hcases with ⟨hcp, hjoin⟩ | ⟨hcp, hpre, hne, hjoin⟩
            · have hpn : w.1.pathname = kPackageJson := by
                apply joinPath_right_inj (joinPath userExtensionsPath m.name)
                  _ _ (by decide)
                rw [← hjoin, hw2]
              rw [hpn]
              decide
            · obtain ⟨x, y, hxy, hy, hx, hcpval⟩ :=
                commonPathOf_ne_nil_decomp e.pathname hcp
              exact manifest_writer_name (commonPathOf e.pathname)
                (joinPath userExtensionsPath m.name) _ w.1 ⟨x, hcpval⟩ rfl
                hpre (by rw [← hjoin, hw2])
          have hcontent : w0.content = some m := by
            rw [← hw1]
            exact hm w.1 hwent hwname
          rw [hcontent] at hdisk
          injection hdisk with hmm
          exact hmm.symm
      rw [hm2] at hle
      obtain ⟨hsp, hsth, hspal⟩ := loadExtension_spec cfg
        (joinPath userExtensionsPath m.name) m false
      rw [← hle, hsp]
      exact ⟨rfl, hsth, hspal⟩

/-- Witness for `install_roundtrip`: an archive wrapping the package in a
`pkg/` folder, whose manifest declares name `foo` with one theme and one
palette contribution, installs to `u/foo` with the contribution paths
joined onto that root. -/
theorem install_roundtrip_witness :
    (Extension.mk (str "u/foo") (str "foo") (str "Foo") true true false
        [(str "t1", str "u/foo/data/t.ase")]
        [(str "p1", str "u/foo/pal/p.gpl")]).path
      = joinPath (str "u")
          (Manifest.mk (str "foo") (str "Foo")
            [(str "t1", str "data/t.ase")] [(str "p1", str "pal/p.gpl")]).name ∧
    (∀ x ∈ (Extension.mk (str "u/foo") (str "foo") (str "Foo") true true false
        [(str "t1", str "u/foo/data/t.ase")]
        [(str "p1", str "u/foo/pal/p.gpl")]).themes,
       ∃ rel, (x.1, rel) ∈ (Manifest.mk (str "foo") (str "Foo")
            [(str "t1", str "data/t.ase")] [(str "p1", str "pal/p.gpl")]).themes ∧
         x.2 = joinPath (Extension.mk (str "u/foo") (str "foo") (str "Foo")
            true true false [(str "t1", str "u/foo/data/t.ase")]
            [(str "p1", str "u/foo/pal/p.gpl")]).path rel) ∧
    (∀ x ∈ (Extension.mk (str "u/foo") (str "foo") (str "Foo") true true false
        [(str "t1", str "u/foo/data/t.ase")]
        [(str "p1", str "u/foo/pal/p.gpl")]).palettes,
       ∃ rel, (x.1, rel) ∈ (Manifest.mk (str "foo") (str "Foo")
            [(str "t1", str "data/t.ase")]
            [(str "p1", str "pal/p.gpl")]).palettes ∧
         x.2 = joinPath (Extension.mk (str "u/foo") (str "foo") (str "Foo")
            true true false [(str "t1", str "u/foo/data/t.ase")]
            [(str "p1", str "u/foo/pal/p.gpl")]).path rel) :=
  install_roundtrip (fun _ => true) (str "u") (str "pkg.zip")
    [ArchiveEntry.mk (str "pkg/package.json")
       (some (Manifest.mk (str "foo") (str "Foo")
         [(str "t1", str "data/t.ase")] [(str "p1", str "pal/p.gpl")])),
     ArchiveEntry.mk (str "pkg/data/t.ase") none,
     ArchiveEntry.mk (str "pkg/pal/p.gpl") none]
    (Manifest.mk (str "foo") (str "Foo")
      [(str "t1", str "data/t.ase")] [(str "p1", str "pal/p.gpl")])
    (by decide)
    (Extension.mk (str "u/foo") (str "foo") (str "Foo") true true false
      [(str "t1", str "u/foo/data/t.ase")]
      [(str "p1", str "u/foo/pal/p.gpl")])
    (by decide)

end AsepriteExt
